import Mathlib

/-!
Kanji2KoeCmd and the AqKanji2Koe interface

A shallow embedding of `samples/Kanji2KoeCmd/Kanji2KoeCmd.cpp`, the command-line
sample that pipes standard input through the AqKanji2Koe language-processing
engine, and of the engine interface declared in `lib/AqKanji2Koe.h`.

Conventions of the embedding

* A C `char` is a byte, `CChar = Fin 256`; a C string is the list of its bytes
  before the terminating NUL.
* `int` values are `Int`; the program performs no arithmetic on them.
* A `void *` handle is a `Nat`, the null pointer being `0`.
* The engine is a library whose implementation is not part of the sample; it
  is a parameter `Engine σ` over an arbitrary state type `σ`, so every
  (history-dependent) behaviour of the library calls is covered.
* `stdin` is the sequence of bytes the C runtime delivers to `fgets`;
  `stdout` is the sequence of bytes handed to `fprintf`.
* C strings are values; whether they fit the arrays that hold them is stated
  separately (`dicDir`, `kanji`, `koe`).
-/

namespace Kanji2KoeCmd

/-- A C `char`, seen as an unsigned byte. -/
abbrev CChar := Fin 256

/-- The macro `NSTR` of the sample. -/
def NSTR : Nat := 4096

/-- The limit `_MAX_PATH` of the Windows C runtime (`stdlib.h`). -/
def _MAX_PATH : Nat := 260

/-- The limit `_MAX_DRIVE` of the Windows C runtime (`stdlib.h`). -/
def _MAX_DRIVE : Nat := 3

/-- The limit `_MAX_DIR` of the Windows C runtime (`stdlib.h`). -/
def _MAX_DIR : Nat := 256

/-- The newline character. -/
def NL : CChar := 10

/-- The string literal "aq_dic". -/
def aq_dic : List CChar := [97, 113, 95, 100, 105, 99]

/-- The string literal "XXX-XXX-XXX". -/
def devKeyLit : List CChar := [88, 88, 88, 45, 88, 88, 88, 45, 88, 88, 88]

/-! ## C runtime functions used by the sample -/

/-- The C string held in a buffer: the bytes before the first NUL. -/
def cstr (buf : List CChar) : List CChar :=
  buf.takeWhile (fun c => c ≠ 0)

/-- The characters one `fgets` call stores and the unread rest of the stream,
when at most `k` characters may be stored: reading stops after a newline, at
the end of the stream, or when `k` characters have been stored. -/
def fgetsAux : List CChar → Nat → List CChar × List CChar
  | [], _ => ([], [])
  | c :: s, k =>
    if k = 0 then ([], c :: s)
    else if c = NL then ([c], s)
    else ((c :: (fgetsAux s (k - 1)).1), (fgetsAux s (k - 1)).2)

/-- The call `fgets(buf, n, stream)`: `none` is the null result at end of file
with nothing read; otherwise the characters stored in `buf` (at most `n - 1`,
followed in `buf` by a NUL) and the unread rest of the stream. -/
def fgets (n : Nat) (stream : List CChar) : Option (List CChar × List CChar) :=
  match stream with
  | [] => none
  | _ :: _ => some (fgetsAux stream (n - 1))

/-- The position one past the last path separator (slash or backslash) of
`p`, or `0` when there is none; `i` is the position of the head of `p`. -/
def lastSlashFrom : List CChar → Nat → Nat → Nat
  | [], _, last => last
  | c :: p, i, last =>
    if c = 47 ∨ c = 92 then lastSlashFrom p (i + 1) (i + 1)
    else lastSlashFrom p (i + 1) last

/-- The `drive` and `dir` outputs of the C runtime function `_splitpath`:
the drive is the first two characters when the second one is a colon, the
directory runs up to and including the last path separator and is cut to
`_MAX_DIR - 1` characters. -/
def _splitpath (path : List CChar) : List CChar × List CChar :=
  let hasDrive : Bool := decide (path.get? (_MAX_DRIVE - 2) = some 58)
  let drive := if hasDrive then path.take (_MAX_DRIVE - 1) else []
  let rest := if hasDrive then path.drop (_MAX_DRIVE - 1) else path
  let len := min (lastSlashFrom rest 0 0) (_MAX_DIR - 1)
  (drive, rest.take len)

/-! ## The engine interface (`AqKanji2Koe.h`) -/

/-- The engine functions the sample calls, over a library state `σ`.

* `AqKanji2Koe_SetDevKey s key` returns the new state and the `int` result.
* `AqKanji2Koe_Create s pathDic err` returns the new state, the handle (`0` on error) and
  the value of `*pErr` after the call, `err` being its value before.
* `AqKanji2Koe_Convert_sjis s h kanji koe nBufKoe` returns the new state, the `int` result
  and the string held in `koe` after the call, `koe` being the one before.
* `AqKanji2Koe_Release s h` returns the new state. -/
structure Engine (σ : Type) where
  AqKanji2Koe_SetDevKey : σ → List CChar → σ × Int
  AqKanji2Koe_Create : σ → List CChar → Int → σ × Nat × Int
  AqKanji2Koe_Convert_sjis : σ → Nat → List CChar → List CChar → Nat → σ × Int × List CChar
  AqKanji2Koe_Release : σ → Nat → σ

/-- One call of the engine interface, with its input arguments. -/
inductive Call where
  | AqKanji2Koe_SetDevKey (devKey : List CChar)
  | AqKanji2Koe_Create (pathDic : List CChar)
  | AqKanji2Koe_Convert_sjis (h : Nat) (kanji : List CChar) (nBufKoe : Nat)
  | AqKanji2Koe_Release (h : Nat)
  deriving DecidableEq, Repr

/-- The observable state of a run of the sample. -/
structure Run (σ : Type) where
  /-- State of the engine library. -/
  lib : σ
  /-- Unread rest of standard input. -/
  stdin : List CChar
  /-- Everything written to standard output so far. -/
  stdout : List CChar
  /-- Engine calls made so far, oldest first. -/
  calls : List Call
  /-- The string held in the array `koe`. -/
  koe : List CChar
  /-- The variable `iret`. -/
  iret : Int
  deriving DecidableEq, Repr

/-! ## The sample program -/

/-- The function `_AqGetExePath`: the drive and directory of the path that
`GetModuleFileName` returned, concatenated by `strcpy` and `strcat`. -/
def _AqGetExePath (modulePath : List CChar) : List CChar :=
  (_splitpath modulePath).1 ++ (_splitpath modulePath).2

/-- The string `main` builds in `dicDir` (lines 52 and 53). -/
def dicDir (modulePath : List CChar) : List CChar :=
  _AqGetExePath modulePath ++ aq_dic

/-- The `for` loop of `main` (lines 61 to 67). The first argument bounds the
number of iterations; `none` means the bound was reached. -/
def mainLoop {σ : Type} (E : Engine σ) (h : Nat) : Nat → Run σ → Option (Run σ)
  | 0, _ => none
  | fuel + 1, r =>
    match fgets NSTR r.stdin with
    | none => some r
    | some (kanji, rest) =>
      let res := E.AqKanji2Koe_Convert_sjis r.lib h (cstr kanji) r.koe NSTR
      let r1 : Run σ :=
        { lib := res.1, stdin := rest, stdout := r.stdout,
          calls := r.calls ++ [Call.AqKanji2Koe_Convert_sjis h (cstr kanji) NSTR],
          koe := res.2.2, iret := res.2.1 }
      if res.2.1 ≠ 0 then some r1
      else mainLoop E h fuel { r1 with stdout := r1.stdout ++ r1.koe ++ [NL] }

/-- The function `main`: the exit code and the final state of the run.
`s0` is the initial state of the library, `modulePath` the string
`GetModuleFileName` returns, `koe0` the initial content of `koe`. -/
def main {σ : Type} (E : Engine σ) (s0 : σ) (modulePath koe0 stdin : List CChar) :
    Option (Int × Run σ) :=
  let k := E.AqKanji2Koe_SetDevKey s0 devKeyLit
  let c := E.AqKanji2Koe_Create k.1 (dicDir modulePath) k.2
  let r0 : Run σ :=
    { lib := c.1, stdin := stdin, stdout := [],
      calls := [Call.AqKanji2Koe_SetDevKey devKeyLit, Call.AqKanji2Koe_Create (dicDir modulePath)],
      koe := koe0, iret := c.2.2 }
  if c.2.1 = 0 then some (r0.iret, r0)
  else
    match mainLoop E c.2.1 (stdin.length + 1) r0 with
    | none => none
    | some r =>
      some (r.iret, { r with lib := E.AqKanji2Koe_Release r.lib c.2.1,
                             calls := r.calls ++ [Call.AqKanji2Koe_Release c.2.1] })

/-! ## Specification-level functions for the loop of `main` -/

/-- All the chunks successive `fgets(kanji, NSTR, stdin)` calls would read
from a stream, with a bound on their number. -/
def chunksAux : Nat → List CChar → List (List CChar)
  | 0, _ => []
  | fuel + 1, s =>
    match fgets NSTR s with
    | none => []
    | some (c, rest) => c :: chunksAux fuel rest

/-- All the chunks successive `fgets(kanji, NSTR, stdin)` calls would read
from a stream until the end of file. -/
def chunks (s : List CChar) : List (List CChar) := chunksAux s.length s

/-- The results `(iret, koe)` of converting the chunks `cs` one after the
other, from library state `s` and `koe` content `koe`. -/
def convertAll {σ : Type} (E : Engine σ) (h : Nat) :
    σ → List CChar → List (List CChar) → List (Int × List CChar)
  | _, _, [] => []
  | s, koe, c :: cs =>
    ((E.AqKanji2Koe_Convert_sjis s h (cstr c) koe NSTR).2.1, (E.AqKanji2Koe_Convert_sjis s h (cstr c) koe NSTR).2.2) ::
      convertAll E h (E.AqKanji2Koe_Convert_sjis s h (cstr c) koe NSTR).1
        (E.AqKanji2Koe_Convert_sjis s h (cstr c) koe NSTR).2.2 cs

/-- The leading conversions that returned `0`. -/
def okPrefix (res : List (Int × List CChar)) : List (Int × List CChar) :=
  res.takeWhile (fun x => decide (x.1 = 0))

/-- The input strings of the `AqKanji2Koe_Convert_sjis` calls of a trace, in order. -/
def convertArgs : List Call → List (List CChar)
  | [] => []
  | Call.AqKanji2Koe_Convert_sjis _ kanji _ :: cs => kanji :: convertArgs cs
  | _ :: cs => convertArgs cs

/-- The text printed for a list of successful conversions: each `koe`
followed by a newline. -/
def stdoutOf (res : List (Int × List CChar)) : List CChar :=
  (res.map (fun x => x.2 ++ [NL])).flatten

/-- The value of `iret` after the conversions `res`, `iret0` being its value
before them. -/
def lastRet (iret0 : Int) (res : List (Int × List CChar)) : Int :=
  (res.getLast?.map Prod.fst).getD iret0

/-- The state of the library, the handle and the content of `iret` right
after the call to `AqKanji2Koe_Create` in `main` (line 56). -/
def created {σ : Type} (E : Engine σ) (s0 : σ) (modulePath : List CChar) : σ × Nat × Int :=
  E.AqKanji2Koe_Create (E.AqKanji2Koe_SetDevKey s0 devKeyLit).1 (dicDir modulePath) (E.AqKanji2Koe_SetDevKey s0 devKeyLit).2

/-- The lines of a stream: each line runs up to and including its newline;
the last one may lack the newline. -/
def splitLines : List CChar → List (List CChar)
  | [] => []
  | c :: s =>
    if c = NL then [c] :: splitLines s
    else
      match splitLines s with
      | [] => [[c]]
      | l :: ls => (c :: l) :: ls

/-- Whether a call is a call to `AqKanji2Koe_Release`. -/
def Call.isRelease : Call → Bool
  | Call.AqKanji2Koe_Release _ => true
  | _ => false

/-! ## Sample engines, used to run the program on concrete inputs -/

/-- An engine whose state counts the calls made. `AqKanji2Koe_SetDevKey` rejects the key
with result `1`; `AqKanji2Koe_Create` succeeds with handle `1` and leaves `*pErr`
untouched; `AqKanji2Koe_Convert_sjis` copies `kanji` to `koe` with result `0`, except that
it fails with code `105` on a text that contains an exclamation mark. -/
def echoEngine : Engine Nat where
  AqKanji2Koe_SetDevKey := fun s _ => (s + 1, 1)
  AqKanji2Koe_Create := fun s _ err => (s + 1, 1, err)
  AqKanji2Koe_Convert_sjis := fun s _ kanji koe _ =>
    if (33 : CChar) ∈ kanji then (s + 1, 105, koe) else (s + 1, 0, kanji)
  AqKanji2Koe_Release := fun s _ => s + 1

/-- An engine whose `AqKanji2Koe_Create` fails with error code `101`. -/
def noDicEngine : Engine Nat where
  AqKanji2Koe_SetDevKey := fun s _ => (s + 1, 0)
  AqKanji2Koe_Create := fun s _ _ => (s + 1, 0, 101)
  AqKanji2Koe_Convert_sjis := fun s _ _ koe _ => (s + 1, 0, koe)
  AqKanji2Koe_Release := fun s _ => s + 1

/-- A module path of 259 characters: `C:\`, 250 times `a`, `\a.exe`. -/
def longModulePath : List CChar :=
  [67, 58, 92] ++ List.replicate 250 97 ++ [92, 97, 46, 101, 120, 101]

/-- The code of the first conversion of `res` that returned nonzero, and `0`
when there is none. -/
def firstError (res : List (Int × List CChar)) : Int :=
  match res.dropWhile (fun x => decide (x.1 = 0)) with
  | [] => 0
  | x :: _ => x.1

end Kanji2KoeCmd

/-!
The engine behind the interface

The implementation of the functions declared in `AqKanji2Koe.h` is not part of
the sources; the definitions of this section follow the design document of
the engine: the Encoding Adapter, the Dictionary Store, the Segmenter and the
buffer contract of the Phonetic Serializer.  Bytes, UTF-16 code units and
code points are natural numbers.
-/

namespace AqKanji2Koe

/-! ## Encoding Adapter -/

/-- Modelled from the spec: the three external encodings of the Encoding
Adapter (the `_utf8`, `_utf16` and `_sjis` entry points of the header). -/
inductive Encoding where
  | utf8
  | utf16le
  | sjis
  deriving DecidableEq, Repr

/-- Modelled from the spec: the substitution code point that replaces a
malformed sequence when decoding (U+FFFD). -/
def substCodePoint : Nat := 0xFFFD

/-- Modelled from the spec: the substitution character that replaces a code
point without representation when encoding to Shift-JIS (a question mark). -/
def substByte : Nat := 0x3F

/-- Modelled from the spec: a Unicode scalar value, the element of
`CodePointText`. -/
def isScalar (c : Nat) : Bool :=
  decide (c < 0xD800) || (decide (0xE000 ≤ c) && decide (c < 0x110000))

/-- Modelled from the spec: the test for a continuation byte in the UTF-8
decoder of the Encoding Adapter. -/
def isCont (b : Nat) : Bool :=
  decide (0x80 ≤ b) && decide (b < 0xC0)

/-- Modelled from the spec: the UTF-8 encoding of one scalar value. -/
def encodeUtf8Char (c : Nat) : List Nat :=
  if c < 0x80 then [c]
  else if c < 0x800 then [0xC0 + c / 64, 0x80 + c % 64]
  else if c < 0x10000 then [0xE0 + c / 4096, 0x80 + c / 64 % 64, 0x80 + c % 64]
  else [0xF0 + c / 262144, 0x80 + c / 4096 % 64, 0x80 + c / 64 % 64, 0x80 + c % 64]

/-- Modelled from the spec: the code point at the head of a UTF-8 byte
sequence `b0 :: rest` and the number of bytes it takes; a malformed head
(stray continuation byte, truncated or overlong sequence, surrogate, value
past U+10FFFF) gives the substitution code point and takes one byte. -/
def decodeUtf8Head (b0 : Nat) (rest : List Nat) : Nat × Nat :=
  if b0 < 0x80 then (b0, 1)
  else if b0 < 0xC0 then (substCodePoint, 1)
  else if b0 < 0xE0 then
    match rest with
    | b1 :: _ =>
      if isCont b1 && decide (0x80 ≤ (b0 - 0xC0) * 64 + (b1 - 0x80)) then
        ((b0 - 0xC0) * 64 + (b1 - 0x80), 2)
      else (substCodePoint, 1)
    | _ => (substCodePoint, 1)
  else if b0 < 0xF0 then
    match rest with
    | b1 :: b2 :: _ =>
      if isCont b1 && isCont b2 &&
          decide (0x800 ≤ (b0 - 0xE0) * 4096 + (b1 - 0x80) * 64 + (b2 - 0x80)) &&
          isScalar ((b0 - 0xE0) * 4096 + (b1 - 0x80) * 64 + (b2 - 0x80)) then
        ((b0 - 0xE0) * 4096 + (b1 - 0x80) * 64 + (b2 - 0x80), 3)
      else (substCodePoint, 1)
    | _ => (substCodePoint, 1)
  else if b0 < 0xF8 then
    match rest with
    | b1 :: b2 :: b3 :: _ =>
      if isCont b1 && isCont b2 && isCont b3 &&
          decide (0x10000 ≤
            (b0 - 0xF0) * 262144 + (b1 - 0x80) * 4096 + (b2 - 0x80) * 64 + (b3 - 0x80)) &&
          decide ((b0 - 0xF0) * 262144 + (b1 - 0x80) * 4096 + (b2 - 0x80) * 64 + (b3 - 0x80)
            < 0x110000) then
        ((b0 - 0xF0) * 262144 + (b1 - 0x80) * 4096 + (b2 - 0x80) * 64 + (b3 - 0x80), 4)
      else (substCodePoint, 1)
    | _ => (substCodePoint, 1)
  else (substCodePoint, 1)

/-- Modelled from the spec: the UTF-16 encoding of one scalar value, as code
units. -/
def encodeUtf16Char (c : Nat) : List Nat :=
  if c < 0x10000 then [c]
  else [0xD800 + (c - 0x10000) / 1024, 0xDC00 + (c - 0x10000) % 1024]

/-- Modelled from the spec: the code point at the head of a UTF-16 code-unit
sequence `u0 :: rest` and the number of units it takes; an unpaired surrogate
or a unit past 16 bits gives the substitution code point and takes one
unit. -/
def decodeUtf16Head (u0 : Nat) (rest : List Nat) : Nat × Nat :=
  if u0 < 0xD800 then (u0, 1)
  else if u0 < 0xDC00 then
    match rest with
    | u1 :: _ =>
      if 0xDC00 ≤ u1 ∧ u1 < 0xE000 then
        (0x10000 + (u0 - 0xD800) * 1024 + (u1 - 0xDC00), 2)
      else (substCodePoint, 1)
    | _ => (substCodePoint, 1)
  else if u0 < 0xE000 then (substCodePoint, 1)
  else if u0 < 0x10000 then (u0, 1)
  else (substCodePoint, 1)

/-- Modelled from the spec: the code table of the double-byte part of
Shift-JIS, which the engine carries as data: `toUnicode lead trail` is the
code point of a double-byte code, `ofUnicode c` the double-byte code of a
code point. -/
structure JisTable where
  toUnicode : Nat → Nat → Option Nat
  ofUnicode : Nat → Option (Nat × Nat)

/-- Modelled from the spec: the test for a lead byte of a double-byte code in
the Shift-JIS codec of the Encoding Adapter. -/
def isSjisLead (b : Nat) : Bool :=
  (decide (0x81 ≤ b) && decide (b ≤ 0x9F)) || (decide (0xE0 ≤ b) && decide (b ≤ 0xFC))

/-- Modelled from the spec: the test for a trail byte of a double-byte code in
the Shift-JIS codec of the Encoding Adapter. -/
def isSjisTrail (b : Nat) : Bool :=
  (decide (0x40 ≤ b) && decide (b ≤ 0x7E)) || (decide (0x80 ≤ b) && decide (b ≤ 0xFC))

/-- Modelled from the spec: the Shift-JIS encoding of one code point: ASCII
as one byte, half-width katakana (U+FF61 to U+FF9F) as one byte from `0xA1`,
a code point of the table as its two bytes, anything else as the
substitution character. -/
def encodeSjisChar (T : JisTable) (c : Nat) : List Nat :=
  if c < 0x80 then [c]
  else if 0xFF61 ≤ c ∧ c ≤ 0xFF9F then [c - 0xFF61 + 0xA1]
  else
    match T.ofUnicode c with
    | some (l, t) => if isSjisLead l && isSjisTrail t then [l, t] else [substByte]
    | none => [substByte]

/-- Modelled from the spec: the code point at the head of a Shift-JIS byte
sequence `b0 :: rest` and the number of bytes it takes; a malformed head
gives the substitution code point and takes one byte. -/
def decodeSjisHead (T : JisTable) (b0 : Nat) (rest : List Nat) : Nat × Nat :=
  if b0 < 0x80 then (b0, 1)
  else if 0xA1 ≤ b0 ∧ b0 ≤ 0xDF then (b0 - 0xA1 + 0xFF61, 1)
  else if isSjisLead b0 then
    match rest with
    | b1 :: _ =>
      if isSjisTrail b1 then
        match T.toUnicode b0 b1 with
        | some c => (c, 2)
        | none => (substCodePoint, 1)
      else (substCodePoint, 1)
    | _ => (substCodePoint, 1)
  else (substCodePoint, 1)

/-- Modelled from the spec: the head decoder of each encoding. -/
def decodeHead (T : JisTable) : Encoding → Nat → List Nat → Nat × Nat
  | Encoding.utf8 => decodeUtf8Head
  | Encoding.utf16le => decodeUtf16Head
  | Encoding.sjis => decodeSjisHead T

/-- Modelled from the spec: the encoder of one code point in each encoding;
in the two Unicode encodings a value that is no scalar value is replaced by
the substitution code point. -/
def encodeChar (T : JisTable) : Encoding → Nat → List Nat
  | Encoding.utf8 => fun c => encodeUtf8Char (if isScalar c then c else substCodePoint)
  | Encoding.utf16le => fun c => encodeUtf16Char (if isScalar c then c else substCodePoint)
  | Encoding.sjis => encodeSjisChar T

/-- Modelled from the spec: the decoding loop of the Encoding Adapter, with a
bound on the number of code points produced. -/
def decodeAux (T : JisTable) (enc : Encoding) : Nat → List Nat → List Nat
  | 0, _ => []
  | _, [] => []
  | fuel + 1, u :: rest =>
    (decodeHead T enc u rest).1 ::
      decodeAux T enc fuel ((u :: rest).drop (decodeHead T enc u rest).2)

/-- Modelled from the spec: the Encoding Adapter, inward direction: the total
conversion of external text to the internal code-point sequence. -/
def decode (T : JisTable) (enc : Encoding) (units : List Nat) : List Nat :=
  decodeAux T enc units.length units

/-- Modelled from the spec: the Encoding Adapter, outward direction: the
conversion of a code-point sequence to external text. -/
def encode (T : JisTable) (enc : Encoding) (cps : List Nat) : List Nat :=
  (cps.map (encodeChar T enc)).flatten

/-- Modelled from the spec: the code points representable in an encoding:
the scalar values for UTF-8 and UTF-16; for Shift-JIS, ASCII, the half-width
katakana, and the code points to which the table gives a well-formed
double-byte code that the table maps back to them. -/
def isRepresentable (T : JisTable) : Encoding → Nat → Bool
  | Encoding.utf8 => isScalar
  | Encoding.utf16le => isScalar
  | Encoding.sjis => fun c =>
    decide (c < 0x80) || (decide (0xFF61 ≤ c) && decide (c ≤ 0xFF9F)) ||
      match T.ofUnicode c with
      | some (l, t) => isSjisLead l && isSjisTrail t && decide (T.toUnicode l t = some c)
      | none => false

/-- A table with two entries: hiragana A (U+3042, `82 A0`) and the kanji
U+4E9C (`88 9F`). -/
def sampleTable : JisTable where
  toUnicode := fun l t =>
    if l = 0x82 ∧ t = 0xA0 then some 0x3042
    else if l = 0x88 ∧ t = 0x9F then some 0x4E9C
    else none
  ofUnicode := fun c =>
    if c = 0x3042 then some (0x82, 0xA0)
    else if c = 0x4E9C then some (0x88, 0x9F)
    else none

/-! ## Dictionary Store and Segmenter -/

/-- Modelled from the spec: a `DictionaryEntry`: surface form, reading,
part-of-speech tag, accent-type index and priority weight. -/
structure DictionaryEntry where
  surface : List Nat
  reading : List Nat
  pos : Nat
  accent : Nat
  weight : Nat
  deriving DecidableEq, Repr

/-- Modelled from the spec: the `DictionaryStore`, a system entry set and a
user entry set (empty when there is no user dictionary). -/
structure DictionaryStore where
  system : List DictionaryEntry
  user : List DictionaryEntry
  deriving DecidableEq, Repr

/-- Modelled from the spec: the broad character classes of the fallback
policy; `boundary` is the class of whitespace and punctuation. -/
inductive CharClass where
  | kanji
  | kana
  | numeral
  | latin
  | boundary
  deriving DecidableEq, Repr

/-- Modelled from the spec: the policy tables the design leaves open: the
character classifier, the part-of-speech plausibility of an entry after the
previous morpheme, and the best-effort reading of an unknown word. -/
structure Policy where
  classOf : Nat → CharClass
  plausibility : Option Nat → Nat → Nat
  unknownReading : CharClass → List Nat → List Nat

/-- Modelled from the spec: a `Morpheme`: its span `[start, stop)` in the
input, the dictionary entry chosen (`none` for an unknown word or a phrase
boundary) and its reading. -/
structure Morpheme where
  start : Nat
  stop : Nat
  entry : Option DictionaryEntry
  reading : List Nat
  deriving DecidableEq, Repr

/-- Modelled from the spec: the prefix query of the Dictionary Store: the
entries, marked `true` when they come from the user dictionary, whose
non-empty surface form starts `text`.  No match is a valid, empty result. -/
def DictionaryStore.lookup (D : DictionaryStore) (text : List Nat) :
    List (Bool × DictionaryEntry) :=
  (D.user.filter (fun e => !e.surface.isEmpty && e.surface.isPrefixOf text)).map
      (fun e => (true, e)) ++
    (D.system.filter (fun e => !e.surface.isEmpty && e.surface.isPrefixOf text)).map
      (fun e => (false, e))

/-- Modelled from the spec: the tie-break order of the Segmenter: `a` is
preferred to `b` when it is longer or, at equal length, when it is a user
entry and `b` is not, then when its weight is higher, then when it is more
plausible after the previous morpheme. -/
def preferred (P : Policy) (prev : Option Nat) (a b : Bool × DictionaryEntry) : Bool :=
  if a.2.surface.length ≠ b.2.surface.length then
    decide (b.2.surface.length < a.2.surface.length)
  else if a.1 ≠ b.1 then a.1
  else if a.2.weight ≠ b.2.weight then decide (b.2.weight < a.2.weight)
  else decide (P.plausibility prev b.2.pos < P.plausibility prev a.2.pos)

/-- Modelled from the spec: the candidate the Segmenter keeps among those
the Dictionary Store returned, `none` when there is none. -/
def pickBest (P : Policy) (prev : Option Nat) :
    List (Bool × DictionaryEntry) → Option (Bool × DictionaryEntry)
  | [] => none
  | c :: cs =>
    match pickBest P prev cs with
    | none => some c
    | some d => if preferred P prev d c then some d else some c

/-- Modelled from the spec: the fallback scan of the Segmenter: the length of
the longest run of code points of class `k` that starts `text`. -/
def runLength (P : Policy) (k : CharClass) : List Nat → Nat
  | [] => 0
  | c :: text => if P.classOf c = k then runLength P k text + 1 else 0

/-- Modelled from the spec: the Segmenter, from position `pos` on the rest
`text` of the input, `prev` being the part of speech of the previous
morpheme: the best dictionary match at the position or, without a match, the
longest run of the class of the first code point as an unknown word.  The
first argument bounds the number of morphemes. -/
def segmentAux (D : DictionaryStore) (P : Policy) :
    Nat → Nat → Option Nat → List Nat → List Morpheme
  | 0, _, _, _ => []
  | _, _, _, [] => []
  | fuel + 1, pos, prev, c :: text =>
    match pickBest P prev (D.lookup (c :: text)) with
    | some (_, e) =>
      { start := pos, stop := pos + e.surface.length, entry := some e, reading := e.reading } ::
        segmentAux D P fuel (pos + e.surface.length) (some e.pos)
          ((c :: text).drop e.surface.length)
    | none =>
      { start := pos, stop := pos + (runLength P (P.classOf c) text + 1), entry := none,
        reading := P.unknownReading (P.classOf c)
          ((c :: text).take (runLength P (P.classOf c) text + 1)) } ::
        segmentAux D P fuel (pos + (runLength P (P.classOf c) text + 1)) none
          ((c :: text).drop (runLength P (P.classOf c) text + 1))

/-- Modelled from the spec: the Segmenter: the ordered morphemes of a
code-point sequence. -/
def segment (D : DictionaryStore) (P : Policy) (text : List Nat) : List Morpheme :=
  segmentAux D P text.length 0 none text

/-- The spans `spans`, taken in order, partition the interval from `a` to
`b`: the first starts at `a`, each starts where the previous one ends, the
last ends at `b`, and none is empty. -/
def IsPartition : List (Nat × Nat) → Nat → Nat → Prop
  | [], a, b => a = b
  | (s, e) :: spans, a, b => s = a ∧ s < e ∧ IsPartition spans e b

/-- The span of a morpheme. -/
def Morpheme.span (m : Morpheme) : Nat × Nat := (m.start, m.stop)

/-- A policy for the examples: digits are numerals, ASCII letters are Latin,
code points from U+3040 to U+30FF are kana, those from U+4E00 to U+9FFF are
kanji, the rest is boundary; an unknown word reads as itself. -/
def samplePolicy : Policy where
  classOf := fun c =>
    if 0x30 ≤ c ∧ c ≤ 0x39 then CharClass.numeral
    else if (0x41 ≤ c ∧ c ≤ 0x5A) ∨ (0x61 ≤ c ∧ c ≤ 0x7A) then CharClass.latin
    else if 0x3040 ≤ c ∧ c ≤ 0x30FF then CharClass.kana
    else if 0x4E00 ≤ c ∧ c ≤ 0x9FFF then CharClass.kanji
    else CharClass.boundary
  plausibility := fun _ _ => 0
  unknownReading := fun _ w => w

/-- A dictionary for the examples: the system entries for U+4ECA U+65E5
("today") and U+4ECA, and a user entry for U+4ECA U+65E5. -/
def sampleDictionary : DictionaryStore where
  system :=
    [{ surface := [0x4ECA, 0x65E5], reading := [0x30AD, 0x30E7, 0x30A6], pos := 1,
       accent := 1, weight := 5 },
     { surface := [0x4ECA], reading := [0x30A4, 0x30DE], pos := 1, accent := 1, weight := 9 }]
  user :=
    [{ surface := [0x4ECA, 0x65E5], reading := [0x30B3, 0x30F3, 0x30CB, 0x30C1], pos := 1,
       accent := 0, weight := 1 }]

/-! ## Engine Handle and conversion -/

/-- Modelled from the spec: the states of the Engine Handle; a handle is
`ready` once its Dictionary Store has been built. -/
inductive HandleState where
  | uninitialized
  | ready (dict : DictionaryStore)
  | released
  deriving DecidableEq, Repr

/-- Modelled from the spec: what the design leaves to data and tables: the
Shift-JIS code table, the Segmenter policy, the Accent/Pronunciation Resolver
followed by the Phonetic Serializer (`render`, from the morphemes to the
kana-style phonetic string as code points), and the nonzero result codes of
a buffer-capacity error and of a call on a handle that is not ready. -/
structure Tables where
  table : JisTable
  policy : Policy
  render : List Morpheme → List Nat
  errBuffer : Int
  errHandle : Int
  errBuffer_ne : errBuffer ≠ 0
  errHandle_ne : errHandle ≠ 0

/-- Modelled from the spec: the data flow of a conversion: Encoding Adapter,
Segmenter, Resolver and Serializer, Encoding Adapter; the result is the
complete phonetic string in the external encoding. -/
def phoneticString (G : Tables) (D : DictionaryStore) (enc : Encoding) (kanji : List Nat) :
    List Nat :=
  encode G.table enc (G.render (segment D G.policy (decode G.table enc kanji)))

/-- Modelled from the spec: `convert` (`AqKanji2Koe_Convert_utf8`, `_utf16`,
`_sjis`): the result code and the content of the array `koe` after the call,
`koe` being its content before.  The phonetic string is stored, followed by a
terminator, when the string and the terminator fit in `nBufKoe` units;
otherwise the call fails with the buffer-capacity code and stores nothing. -/
def convert (G : Tables) (hs : HandleState) (enc : Encoding) (kanji koe : List Nat)
    (nBufKoe : Int) : Int × List Nat :=
  match hs with
  | HandleState.ready D =>
    if ((phoneticString G D enc kanji).length : Int) + 1 ≤ nBufKoe then
      (0, phoneticString G D enc kanji ++ [0] ++
        koe.drop ((phoneticString G D enc kanji).length + 1))
    else (G.errBuffer, koe)
  | _ => (G.errHandle, koe)

/-- An engine for the examples: the sample table and policy, a serializer
that concatenates the readings, and the result codes `1` and `2`. -/
def sampleTables : Tables where
  table := sampleTable
  policy := samplePolicy
  render := fun ms => (ms.map (fun m => m.reading)).flatten
  errBuffer := 1
  errHandle := 2
  errBuffer_ne := by decide
  errHandle_ne := by decide

end AqKanji2Koe

namespace Kanji2KoeCmd

/-! ## Lemmas on `fgets` and the loop of `main` -/

theorem fgetsAux_append (s : List CChar) (k : Nat) :
    (fgetsAux s k).1 ++ (fgetsAux s k).2 = s := by
  induction s generalizing k with
  | nil => simp [fgetsAux]
  | cons c s ih =>
    unfold fgetsAux
    split_ifs with h1 h2
    · simp
    · simp
    · simp [ih]

theorem fgetsAux_length_le (s : List CChar) (k : Nat) :
    (fgetsAux s k).1.length ≤ k := by
  induction s generalizing k with
  | nil => simp [fgetsAux]
  | cons c s ih =>
    unfold fgetsAux
    split_ifs with h1 h2
    · simp
    · simp; omega
    · have := ih (k - 1)
      simp; omega

theorem fgetsAux_ne_nil (c : CChar) (s : List CChar) (k : Nat) (hk : 0 < k) :
    (fgetsAux (c :: s) k).1 ≠ [] := by
  unfold fgetsAux
  split_ifs with h1 h2
  · omega
  · simp
  · simp

theorem fgetsAux_rest_length (c : CChar) (s : List CChar) (k : Nat) (hk : 0 < k) :
    (fgetsAux (c :: s) k).2.length < (c :: s).length := by
  have h1 := fgetsAux_append (c :: s) k
  have h2 := fgetsAux_ne_nil c s k hk
  have h3 := congrArg List.length h1
  rw [List.length_append] at h3
  have : 0 < (fgetsAux (c :: s) k).1.length := List.length_pos.mpr h2
  omega

theorem chunksAux_fuel (fuel : Nat) : ∀ (s : List CChar), s.length ≤ fuel →
    chunksAux fuel s = chunksAux s.length s := by
  induction fuel using Nat.strong_induction_on with
  | _ fuel ih =>
    intro s hs
    cases s with
    | nil =>
      cases fuel <;> simp [chunksAux, fgets]
    | cons c s =>
      cases fuel with
      | zero => simp at hs
      | succ fuel =>
        have hr := fgetsAux_rest_length c s (NSTR - 1) (by decide)
        simp only [List.length_cons] at hr hs ⊢
        simp only [chunksAux, fgets]
        rw [ih fuel (by omega) _ (by omega), ih s.length (by omega) _ (by omega)]

theorem chunks_nil : chunks [] = [] := rfl

theorem fgets_nil (n : Nat) : fgets n [] = none := rfl

theorem fgets_of_ne_nil (n : Nat) (s : List CChar) (hs : s ≠ []) :
    fgets n s = some (fgetsAux s (n - 1)) := by
  cases s with
  | nil => exact absurd rfl hs
  | cons c s => rfl

theorem fgetsAux_rest_lt (s : List CChar) (hs : s ≠ []) (k : Nat) (hk : 0 < k) :
    (fgetsAux s k).2.length < s.length := by
  cases s with
  | nil => exact absurd rfl hs
  | cons c s => exact fgetsAux_rest_length c s k hk

theorem chunks_of_ne_nil (s : List CChar) (hs : s ≠ []) :
    chunks s = (fgetsAux s (NSTR - 1)).1 :: chunks (fgetsAux s (NSTR - 1)).2 := by
  cases s with
  | nil => exact absurd rfl hs
  | cons c s =>
    have hr := fgetsAux_rest_length c s (NSTR - 1) (by decide)
    simp only [List.length_cons] at hr
    simp only [chunks, List.length_cons, chunksAux, fgets]
    rw [chunksAux_fuel s.length _ (by omega)]

theorem chunks_join_aux (n : Nat) : ∀ (s : List CChar), s.length = n →
    (chunks s).flatten = s := by
  induction n using Nat.strong_induction_on with
  | _ n ih =>
    intro s h
    by_cases hs : s = []
    · subst hs; simp [chunks_nil]
    · have hr := fgetsAux_rest_lt s hs (NSTR - 1) (by decide)
      rw [chunks_of_ne_nil s hs, List.flatten_cons, ih _ (by rw [← h]; exact hr) _ rfl]
      exact fgetsAux_append _ _

theorem chunks_join (s : List CChar) : (chunks s).flatten = s :=
  chunks_join_aux s.length s rfl

theorem mainLoop_spec {σ : Type} (E : Engine σ) (h : Nat) :
    ∀ (fuel : Nat) (r : Run σ), r.stdin.length < fuel →
      ∃ r', mainLoop E h fuel r = some r' ∧
        r'.stdout = r.stdout ++
          stdoutOf (okPrefix (convertAll E h r.lib r.koe (chunks r.stdin))) ∧
        r'.calls = r.calls ++
          ((chunks r.stdin).take
            ((okPrefix (convertAll E h r.lib r.koe (chunks r.stdin))).length + 1)).map
              (fun c => Call.AqKanji2Koe_Convert_sjis h (cstr c) NSTR) ∧
        ((chunks r.stdin).take
            ((okPrefix (convertAll E h r.lib r.koe (chunks r.stdin))).length + 1)).flatten
          ++ r'.stdin = r.stdin ∧
        r'.iret = lastRet r.iret
          ((convertAll E h r.lib r.koe (chunks r.stdin)).take
            ((okPrefix (convertAll E h r.lib r.koe (chunks r.stdin))).length + 1)) := by
  intro fuel
  induction fuel with
  | zero => intro r hr; omega
  | succ fuel ih =>
    intro r hr
    obtain ⟨lib, stdin, stdout, calls, koe, iret⟩ := r
    by_cases hs : stdin = []
    · subst hs
      refine ⟨⟨lib, [], stdout, calls, koe, iret⟩, by simp [mainLoop, fgets], ?_⟩
      simp [chunks_nil, convertAll, okPrefix, stdoutOf, lastRet]
    · have hlen := fgetsAux_rest_lt stdin hs (NSTR - 1) (by decide)
      have happ := fgetsAux_append stdin (NSTR - 1)
      simp only at hr
      simp only [chunks_of_ne_nil stdin hs, convertAll, mainLoop, fgets_of_ne_nil NSTR stdin hs]
      generalize fgetsAux stdin (NSTR - 1) = fa at hlen happ ⊢
      obtain ⟨a, rest⟩ := fa
      generalize E.AqKanji2Koe_Convert_sjis lib h (cstr a) koe NSTR = cv
      obtain ⟨lib1, ret, koe1⟩ := cv
      simp only at hlen happ ⊢
      by_cases hret : ret = 0
      · subst hret
        obtain ⟨r', h1, h2, h3, h4, h5⟩ := ih
          { lib := lib1, stdin := rest, stdout := stdout ++ koe1 ++ [NL],
            calls := calls ++ [Call.AqKanji2Koe_Convert_sjis h (cstr a) NSTR], koe := koe1, iret := 0 }
          (by simp only; omega)
        simp only at h2 h3 h4 h5
        refine ⟨r', ?_, ?_, ?_, ?_, ?_⟩
        · simpa using h1
        · rw [h2]
          simp [okPrefix, stdoutOf, List.takeWhile_cons]
        · rw [h3]
          simp [okPrefix, List.takeWhile_cons]
        · simp only [okPrefix, List.takeWhile_cons, decide_True,
            if_true, List.length_cons, List.take_succ_cons, List.flatten_cons, List.append_assoc]
          simp only [okPrefix] at h4
          rw [h4]
          exact happ
        · rw [h5]
          simp only [okPrefix, List.takeWhile_cons, decide_True,
            if_true, List.length_cons, List.take_succ_cons, lastRet]
          generalize List.take _ (convertAll E h lib1 koe1 (chunks rest)) = l
          cases l with
          | nil => simp
          | cons a l => simp [List.getLast?_eq_getLast _ (List.cons_ne_nil a l)]
      · refine ⟨⟨lib1, rest, stdout, calls ++ [Call.AqKanji2Koe_Convert_sjis h (cstr a) NSTR], koe1, ret⟩,
          by simp [hret], ?_⟩
        simp [okPrefix, hret, List.takeWhile_cons, stdoutOf, lastRet]
        exact happ

/-! ## Properties of the chunks and of the lines -/

theorem fgetsAux_nl_last (s : List CChar) (k : Nat) (a b : List CChar)
    (h : (fgetsAux s k).1 = a ++ NL :: b) : b = [] := by
  induction s generalizing k a with
  | nil => simp [fgetsAux] at h
  | cons c s ih =>
    unfold fgetsAux at h
    split_ifs at h with h1 h2
    · simp at h
    · cases a with
      | nil =>
        simp only [List.nil_append, List.cons.injEq] at h
        exact h.2.symm
      | cons x a => simp at h
    · cases a with
      | nil =>
        simp only [List.nil_append, List.cons.injEq] at h
        exact absurd h.1 h2
      | cons x a =>
        simp only [List.cons_append, List.cons.injEq] at h
        exact ih (k - 1) a h.2

theorem chunks_forall (P : List CChar → Prop)
    (hP : ∀ s : List CChar, s ≠ [] → P (fgetsAux s (NSTR - 1)).1) :
    ∀ (n : Nat) (s : List CChar), s.length = n → ∀ c ∈ chunks s, P c := by
  intro n
  induction n using Nat.strong_induction_on with
  | _ n ih =>
    intro s hn c hc
    by_cases hs : s = []
    · subst hs; simp [chunks_nil] at hc
    · rw [chunks_of_ne_nil s hs, List.mem_cons] at hc
      rcases hc with hc | hc
      · subst hc; exact hP s hs
      · exact ih _ (by rw [← hn]; exact fgetsAux_rest_lt s hs _ (by decide)) _ rfl c hc

theorem chunk_length_le (s c : List CChar) (hc : c ∈ chunks s) : c.length ≤ NSTR - 1 :=
  chunks_forall (fun c => c.length ≤ NSTR - 1)
    (fun s _ => fgetsAux_length_le s (NSTR - 1)) s.length s rfl c hc

theorem chunk_ne_nil (s c : List CChar) (hc : c ∈ chunks s) : c ≠ [] :=
  chunks_forall (fun c => c ≠ [])
    (fun s hs => by
      cases s with
      | nil => exact absurd rfl hs
      | cons x s => exact fgetsAux_ne_nil x s _ (by decide)) s.length s rfl c hc

theorem chunk_nl_last (s c : List CChar) (hc : c ∈ chunks s) :
    ∀ a b : List CChar, c = a ++ NL :: b → b = [] :=
  chunks_forall (fun c => ∀ a b : List CChar, c = a ++ NL :: b → b = [])
    (fun s _ a b h => fgetsAux_nl_last s _ a b h) s.length s rfl c hc

theorem cstr_initial (c : List CChar) : cstr c <+: c :=
  List.takeWhile_prefix _

theorem cstr_of_no_nul (c : List CChar) (h : (0 : CChar) ∉ c) : cstr c = c := by
  unfold cstr
  rw [List.takeWhile_eq_self_iff]
  intro x hx
  simp only [ne_eq, decide_not, Bool.not_eq_true', decide_eq_false_iff_not]
  intro h0
  exact h (h0 ▸ hx)

theorem cstr_length_le (s c : List CChar) (hc : c ∈ chunks s) :
    (cstr c).length ≤ NSTR - 1 :=
  le_trans (cstr_initial c).length_le (chunk_length_le s c hc)

theorem cstr_nl_last (s c : List CChar) (hc : c ∈ chunks s) (a b : List CChar)
    (h : cstr c = a ++ NL :: b) : b = [] := by
  obtain ⟨t, ht⟩ := cstr_initial c
  rw [h] at ht
  have := chunk_nl_last s c hc a (b ++ t) (by rw [← ht]; simp)
  exact (List.append_eq_nil.mp this).1

theorem splitLines_ne_nil (s : List CChar) (hs : s ≠ []) : splitLines s ≠ [] := by
  cases s with
  | nil => exact absurd rfl hs
  | cons c s =>
    unfold splitLines
    split_ifs
    · simp
    · split <;> simp

theorem splitLines_flatten (s : List CChar) : (splitLines s).flatten = s := by
  induction s with
  | nil => simp [splitLines]
  | cons c s ih =>
    unfold splitLines
    split_ifs with h
    · simp [ih]
    · split
      next heq =>
        rw [heq] at ih
        simp at ih
        simp [← ih]
      next l ls heq =>
        rw [heq] at ih
        simp at ih
        simp [← ih]

theorem splitLines_eq_fgetsAux (s : List CChar) (hs : s ≠ []) (k : Nat)
    (hk : ∀ l ∈ (splitLines s).head?, l.length ≤ k) :
    splitLines s = (fgetsAux s k).1 :: splitLines (fgetsAux s k).2 := by
  induction s generalizing k with
  | nil => exact absurd rfl hs
  | cons c s ih =>
    by_cases hc : c = NL
    · have hk0 : k ≠ 0 := by
        have := hk [c] (by simp [splitLines, hc])
        simp at this
        omega
      simp [splitLines, fgetsAux, hc, hk0]
    · by_cases hs' : s = []
      · subst hs'
        have hk0 : k ≠ 0 := by
          have := hk [c] (by simp [splitLines, hc])
          simp at this
          omega
        simp [splitLines, fgetsAux, hc, hk0]
      · obtain ⟨l, ls, hl⟩ := List.exists_cons_of_ne_nil (splitLines_ne_nil s hs')
        have hkl : l.length + 1 ≤ k := by
          have := hk (c :: l) (by simp [splitLines, hc, hl])
          simpa using this
        have hk0 : k ≠ 0 := by omega
        have ih' := ih hs' (k - 1) (by
          intro l' hl'
          rw [hl] at hl'
          simp at hl'
          subst hl'
          omega)
        rw [hl] at ih'
        simp only [List.cons.injEq] at ih'
        simp [splitLines, fgetsAux, hc, hk0, hl, ih'.1, ih'.2]

theorem chunks_eq_splitLines : ∀ (n : Nat) (s : List CChar), s.length = n →
    (∀ l ∈ splitLines s, l.length ≤ NSTR - 1) → chunks s = splitLines s := by
  intro n
  induction n using Nat.strong_induction_on with
  | _ n ih =>
    intro s hn hl
    by_cases hs : s = []
    · subst hs; simp [chunks_nil, splitLines]
    · have h1 := splitLines_eq_fgetsAux s hs (NSTR - 1) (by
        intro l hl'
        exact hl l (List.mem_of_mem_head? hl'))
      rw [chunks_of_ne_nil s hs, h1]
      congr 1
      apply ih _ (by rw [← hn]; exact fgetsAux_rest_lt s hs _ (by decide)) _ rfl
      intro l hl'
      apply hl
      rw [h1]
      exact List.mem_cons_of_mem _ hl'

theorem splitLines_nl_last (s : List CChar) :
    ∀ l ∈ splitLines s, ∀ a b : List CChar, l = a ++ NL :: b → b = [] := by
  induction s with
  | nil => simp [splitLines]
  | cons c s ih =>
    intro l hl a b hab
    unfold splitLines at hl
    split_ifs at hl with hc
    · rw [List.mem_cons] at hl
      rcases hl with hl | hl
      · subst hl
        cases a with
        | nil =>
          simp only [List.nil_append, List.cons.injEq] at hab
          exact hab.2.symm
        | cons x a => simp at hab
      · exact ih l hl a b hab
    · split at hl
      · simp only [List.mem_singleton] at hl
        subst hl
        cases a with
        | nil =>
          simp only [List.nil_append, List.cons.injEq] at hab
          exact absurd hab.1 hc
        | cons x a => simp at hab
      · next l' ls heq =>
        rw [heq] at ih
        rw [List.mem_cons] at hl
        rcases hl with hl | hl
        · subst hl
          cases a with
          | nil =>
            simp only [List.nil_append, List.cons.injEq] at hab
            exact absurd hab.1 hc
          | cons x a =>
            simp only [List.cons_append, List.cons.injEq] at hab
            exact ih l' (List.mem_cons_self _ _) a b hab.2
        · exact ih l (List.mem_cons_of_mem _ hl) a b hab

theorem splitLines_nonempty (s : List CChar) : ∀ l ∈ splitLines s, l ≠ [] := by
  induction s with
  | nil => simp [splitLines]
  | cons c s ih =>
    intro l hl
    unfold splitLines at hl
    split_ifs at hl with hc
    · rw [List.mem_cons] at hl
      rcases hl with hl | hl
      · subst hl; simp
      · exact ih l hl
    · split at hl
      · simp only [List.mem_singleton] at hl
        subst hl; simp
      · next l' ls heq =>
        rw [heq] at ih
        rw [List.mem_cons] at hl
        rcases hl with hl | hl
        · subst hl; simp
        · exact ih l (List.mem_cons_of_mem _ hl)

theorem splitLines_terminated (s : List CChar) :
    ∀ l ∈ (splitLines s).dropLast, l.getLast? = some NL := by
  induction s with
  | nil => simp [splitLines]
  | cons c s ih =>
    intro l hl
    unfold splitLines at hl
    split_ifs at hl with hc
    · cases hsl : splitLines s with
      | nil => simp [hsl] at hl
      | cons x xs =>
        rw [hsl, List.dropLast_cons₂, List.mem_cons] at hl
        rcases hl with hl | hl
        · subst hl; simp [hc]
        · exact ih l (by rw [hsl]; exact hl)
    · split at hl
      · simp at hl
      · next l' ls heq =>
        rw [heq] at ih
        cases ls with
        | nil => simp at hl
        | cons x xs =>
          rw [List.dropLast_cons₂, List.mem_cons] at hl
          rw [List.dropLast_cons₂] at ih
          rcases hl with hl | hl
          · subst hl
            have h1 := ih l' (List.mem_cons_self _ _)
            cases l' with
            | nil => simp at h1
            | cons y ys => rw [List.getLast?_cons_cons]; exact h1
          · exact ih l (List.mem_cons_of_mem _ hl)

/-! ## The run of `main` -/

theorem main_created_null {σ : Type} (E : Engine σ) (s0 : σ)
    (modulePath koe0 stdin : List CChar) (hh : (created E s0 modulePath).2.1 = 0) :
    main E s0 modulePath koe0 stdin =
      some ((created E s0 modulePath).2.2,
        { lib := (created E s0 modulePath).1, stdin := stdin, stdout := [],
          calls := [Call.AqKanji2Koe_SetDevKey devKeyLit, Call.AqKanji2Koe_Create (dicDir modulePath)],
          koe := koe0, iret := (created E s0 modulePath).2.2 }) := by
  simp only [created] at hh
  simp [main, created, hh]

theorem main_created_ok {σ : Type} (E : Engine σ) (s0 : σ)
    (modulePath koe0 stdin : List CChar) (hh : (created E s0 modulePath).2.1 ≠ 0) :
    ∃ r : Run σ, main E s0 modulePath koe0 stdin =
        some (r.iret, { r with lib := E.AqKanji2Koe_Release r.lib (created E s0 modulePath).2.1,
                               calls := r.calls ++ [Call.AqKanji2Koe_Release (created E s0 modulePath).2.1] }) ∧
      r.stdout = stdoutOf (okPrefix
        (convertAll E (created E s0 modulePath).2.1 (created E s0 modulePath).1 koe0
          (chunks stdin))) ∧
      r.calls = [Call.AqKanji2Koe_SetDevKey devKeyLit, Call.AqKanji2Koe_Create (dicDir modulePath)] ++
        ((chunks stdin).take ((okPrefix
          (convertAll E (created E s0 modulePath).2.1 (created E s0 modulePath).1 koe0
            (chunks stdin))).length + 1)).map
          (fun c => Call.AqKanji2Koe_Convert_sjis (created E s0 modulePath).2.1 (cstr c) NSTR) ∧
      ((chunks stdin).take ((okPrefix
          (convertAll E (created E s0 modulePath).2.1 (created E s0 modulePath).1 koe0
            (chunks stdin))).length + 1)).flatten ++ r.stdin = stdin ∧
      r.iret = lastRet (created E s0 modulePath).2.2
        ((convertAll E (created E s0 modulePath).2.1 (created E s0 modulePath).1 koe0
            (chunks stdin)).take ((okPrefix
          (convertAll E (created E s0 modulePath).2.1 (created E s0 modulePath).1 koe0
            (chunks stdin))).length + 1)) := by
  obtain ⟨r, h1, h2, h3, h4, h5⟩ := mainLoop_spec E (created E s0 modulePath).2.1
    (stdin.length + 1)
    { lib := (created E s0 modulePath).1, stdin := stdin, stdout := [],
      calls := [Call.AqKanji2Koe_SetDevKey devKeyLit, Call.AqKanji2Koe_Create (dicDir modulePath)],
      koe := koe0, iret := (created E s0 modulePath).2.2 } (by simp)
  refine ⟨r, ?_, by simpa using h2, h3, h4, h5⟩
  simp only [created] at hh h1
  simp [main, created, hh, h1]

theorem convertArgs_append (l1 l2 : List Call) :
    convertArgs (l1 ++ l2) = convertArgs l1 ++ convertArgs l2 := by
  induction l1 with
  | nil => rfl
  | cons c l1 ih => cases c <;> simp [convertArgs, ih]

theorem convertArgs_map (h n : Nat) (ks : List (List CChar)) :
    convertArgs (ks.map (fun k => Call.AqKanji2Koe_Convert_sjis h (cstr k) n)) = ks.map cstr := by
  induction ks with
  | nil => rfl
  | cons k ks ih => simp [convertArgs, ih]

theorem mem_convertArgs (l : List Call) (h n : Nat) (kanji : List CChar)
    (hm : Call.AqKanji2Koe_Convert_sjis h kanji n ∈ l) : kanji ∈ convertArgs l := by
  induction l with
  | nil => simp at hm
  | cons c l ih =>
    rw [List.mem_cons] at hm
    rcases hm with hm | hm
    · subst hm; simp [convertArgs]
    · cases c <;> simp [convertArgs, ih hm]

theorem map_cstr_of_no_nul (cs : List (List CChar)) (h : (0 : CChar) ∉ cs.flatten) :
    cs.map cstr = cs := by
  induction cs with
  | nil => rfl
  | cons c cs ih =>
    simp only [List.flatten_cons, List.mem_append, not_or] at h
    simp [cstr_of_no_nul c h.1, ih h.2]

theorem take_min_length {α : Type} (n : Nat) (l : List α) :
    l.take (min n l.length) = l.take n := by
  by_cases h : n ≤ l.length
  · rw [Nat.min_eq_left h]
  · rw [Nat.min_eq_right (by omega), List.take_length, List.take_of_length_le (by omega)]

/-- The run of `main` always ends, and every call it makes to
`AqKanji2Koe_Convert_sjis` passes the C string of one of the first chunks
of standard input, with `nBufKoe = NSTR`. -/
theorem main_calls {σ : Type} (E : Engine σ) (s0 : σ) (modulePath koe0 stdin : List CChar) :
    ∃ (code : Int) (r : Run σ) (m : Nat), main E s0 modulePath koe0 stdin = some (code, r) ∧
      m ≤ (chunks stdin).length ∧
      convertArgs r.calls = ((chunks stdin).take m).map cstr ∧
      ((chunks stdin).take m).flatten ++ r.stdin = stdin ∧
      (∀ h kanji n, Call.AqKanji2Koe_Convert_sjis h kanji n ∈ r.calls → n = NSTR) := by
  by_cases hh : (created E s0 modulePath).2.1 = 0
  · refine ⟨_, _, 0, main_created_null E s0 modulePath koe0 stdin hh, by simp, ?_, ?_, ?_⟩
    · simp [convertArgs]
    · simp
    · intro h kanji n hm
      simp at hm
  · obtain ⟨r, h1, -, h3, h4, -⟩ := main_created_ok E s0 modulePath koe0 stdin hh
    generalize (okPrefix (convertAll E (created E s0 modulePath).2.1
      (created E s0 modulePath).1 koe0 (chunks stdin))).length + 1 = N at h3 h4
    refine ⟨_, _, min N (chunks stdin).length, h1, min_le_right _ _, ?_, ?_, ?_⟩
    · simp only [h3, convertArgs_append, convertArgs_map, take_min_length]
      simp [convertArgs]
    · simp only [take_min_length]
      exact h4
    · intro h kanji n hm
      simp only [h3] at hm
      simp only [List.mem_append, List.mem_cons, List.mem_map, List.mem_singleton,
        List.not_mem_nil, or_false, reduceCtorEq, false_or] at hm
      obtain ⟨a, -, ha⟩ := hm
      simp only [Call.AqKanji2Koe_Convert_sjis.injEq] at ha
      exact ha.2.2.symm

/-! ## The handle life cycle in `main` -/

/-- C1: on a run where `AqKanji2Koe_Create` returns a non-null handle `h`, the
run of `main` ends and the engine calls it made are, in order: the
`AqKanji2Koe_SetDevKey` call (which takes no handle), `AqKanji2Koe_Create`, then zero or more
`AqKanji2Koe_Convert_sjis` calls on `h` with `nBufKoe = NSTR`, then one `AqKanji2Koe_Release` of `h` as
the last call; `AqKanji2Koe_Release` is called exactly once, whatever the conversions
returned. -/
theorem main_call_sequence {σ : Type} (E : Engine σ) (s0 : σ)
    (modulePath koe0 stdin : List CChar) (hh : (created E s0 modulePath).2.1 ≠ 0) :
    ∃ (code : Int) (r : Run σ) (kanjis : List (List CChar)),
      main E s0 modulePath koe0 stdin = some (code, r) ∧
      r.calls = [Call.AqKanji2Koe_SetDevKey devKeyLit, Call.AqKanji2Koe_Create (dicDir modulePath)] ++
        kanjis.map (fun k => Call.AqKanji2Koe_Convert_sjis (created E s0 modulePath).2.1 k NSTR) ++
        [Call.AqKanji2Koe_Release (created E s0 modulePath).2.1] ∧
      r.calls.countP Call.isRelease = 1 := by
  obtain ⟨r, h1, -, h3, -, -⟩ := main_created_ok E s0 modulePath koe0 stdin hh
  generalize (okPrefix (convertAll E (created E s0 modulePath).2.1
    (created E s0 modulePath).1 koe0 (chunks stdin))).length + 1 = N at h3
  refine ⟨_, _, ((chunks stdin).take N).map cstr, h1, ?_, ?_⟩
  · simp [h3, List.map_map, Function.comp_def]
  · simp only [h3, List.countP_append, List.countP_map]
    simp [Call.isRelease, List.countP_cons, Function.comp_def]

/-- Witness of `main_call_sequence`: the echo engine on three chunks, the
second of which fails. -/
theorem main_call_sequence_witness :
    (created echoEngine 0 []).2.1 ≠ 0 ∧
    ∃ (code : Int) (r : Run Nat) (kanjis : List (List CChar)),
      main echoEngine 0 [] [] [97, 10, 33, 10, 98] = some (code, r) ∧
      r.calls = [Call.AqKanji2Koe_SetDevKey devKeyLit, Call.AqKanji2Koe_Create (dicDir [])] ++
        kanjis.map (fun k => Call.AqKanji2Koe_Convert_sjis (created echoEngine 0 []).2.1 k NSTR) ++
        [Call.AqKanji2Koe_Release (created echoEngine 0 []).2.1] ∧
      r.calls.countP Call.isRelease = 1 :=
  ⟨by decide, main_call_sequence echoEngine 0 [] [] [97, 10, 33, 10, 98] (by decide)⟩

/-- C2: if `AqKanji2Koe_Create` returns the null handle, `main` returns the
value `AqKanji2Koe_Create` left in `iret` through `pErr`, writes nothing to standard
output, reads nothing from standard input, and its only engine calls are
`AqKanji2Koe_SetDevKey` and `AqKanji2Koe_Create`: neither `AqKanji2Koe_Convert_sjis` nor `AqKanji2Koe_Release` is called. -/
theorem main_create_failure {σ : Type} (E : Engine σ) (s0 : σ)
    (modulePath koe0 stdin : List CChar) (hh : (created E s0 modulePath).2.1 = 0) :
    ∃ r : Run σ, main E s0 modulePath koe0 stdin = some ((created E s0 modulePath).2.2, r) ∧
      r.stdout = [] ∧ r.stdin = stdin ∧
      r.calls = [Call.AqKanji2Koe_SetDevKey devKeyLit, Call.AqKanji2Koe_Create (dicDir modulePath)] :=
  ⟨_, main_created_null E s0 modulePath koe0 stdin hh, rfl, rfl, rfl⟩

/-- Witness of `main_create_failure`: an engine whose `AqKanji2Koe_Create` fails with
code `101`. -/
theorem main_create_failure_witness :
    (created noDicEngine 0 []).2.1 = 0 ∧
    ∃ r : Run Nat, main noDicEngine 0 [] [] [97, 10] = some ((created noDicEngine 0 []).2.2, r) ∧
      r.stdout = [] ∧ r.stdin = [97, 10] ∧
      r.calls = [Call.AqKanji2Koe_SetDevKey devKeyLit, Call.AqKanji2Koe_Create (dicDir [])] :=
  ⟨by decide, main_create_failure noDicEngine 0 [] [] [97, 10] (by decide)⟩

/-! ## Input and output of `main` -/

/-- C7: on a run where `AqKanji2Koe_Create` succeeds, `main` ends and, `res` being the
results of converting the `fgets` chunks of standard input in order, what it
wrote to standard output is the `koe` of each conversion before the first
one that returned nonzero, each followed by a newline; the conversions made
are those of these chunks and of the failing one, and the input after the
failing chunk is left unread. -/
theorem main_stdout {σ : Type} (E : Engine σ) (s0 : σ)
    (modulePath koe0 stdin : List CChar) (hh : (created E s0 modulePath).2.1 ≠ 0) :
    ∃ (code : Int) (r : Run σ), main E s0 modulePath koe0 stdin = some (code, r) ∧
      r.stdout = ((okPrefix
        (convertAll E (created E s0 modulePath).2.1 (created E s0 modulePath).1 koe0
          (chunks stdin))).map (fun x => x.2 ++ [NL])).flatten ∧
      convertArgs r.calls = ((chunks stdin).take ((okPrefix
        (convertAll E (created E s0 modulePath).2.1 (created E s0 modulePath).1 koe0
          (chunks stdin))).length + 1)).map cstr ∧
      ((chunks stdin).take ((okPrefix
        (convertAll E (created E s0 modulePath).2.1 (created E s0 modulePath).1 koe0
          (chunks stdin))).length + 1)).flatten ++ r.stdin = stdin := by
  obtain ⟨r, h1, h2, h3, h4, -⟩ := main_created_ok E s0 modulePath koe0 stdin hh
  refine ⟨_, _, h1, h2, ?_, h4⟩
  simp only [h3, convertArgs_append, convertArgs_map]
  simp [convertArgs]

/-- Witness of `main_stdout`: the echo engine on three chunks, the second of
which fails. -/
theorem main_stdout_witness :
    (created echoEngine 0 []).2.1 ≠ 0 ∧
    ∃ (code : Int) (r : Run Nat), main echoEngine 0 [] [] [97, 10, 33, 10, 98] = some (code, r) ∧
      r.stdout = ((okPrefix
        (convertAll echoEngine (created echoEngine 0 []).2.1 (created echoEngine 0 []).1 []
          (chunks [97, 10, 33, 10, 98]))).map (fun x => x.2 ++ [NL])).flatten ∧
      convertArgs r.calls = ((chunks [97, 10, 33, 10, 98]).take ((okPrefix
        (convertAll echoEngine (created echoEngine 0 []).2.1 (created echoEngine 0 []).1 []
          (chunks [97, 10, 33, 10, 98]))).length + 1)).map cstr ∧
      ((chunks [97, 10, 33, 10, 98]).take ((okPrefix
        (convertAll echoEngine (created echoEngine 0 []).2.1 (created echoEngine 0 []).1 []
          (chunks [97, 10, 33, 10, 98]))).length + 1)).flatten ++ r.stdin =
        [97, 10, 33, 10, 98] :=
  ⟨by decide, main_stdout echoEngine 0 [] [] [97, 10, 33, 10, 98] (by decide)⟩

/-- C10, as stated, fails: on the input `\0\n` the chunk `fgets` reads starts
with a NUL, so the string passed to `AqKanji2Koe_Convert_sjis` is empty. -/
theorem convert_arg_empty_counterexample :
    (created echoEngine 0 []).2.1 ≠ 0 ∧
    (main echoEngine 0 [] [] [0, 10]).map (fun x => convertArgs x.2.calls) = some [[]] := by
  decide

/-- C10, amended: `main` ends and every call it makes to
`AqKanji2Koe_Convert_sjis` passes a string of at most `NSTR - 1` bytes that
contains a newline only as its last byte, with `nBufKoe = NSTR`; when standard
input contains no NUL byte, every such string has at least one byte and the
strings passed, concatenated in order, are a prefix of standard input. -/
theorem convert_args_bounds {σ : Type} (E : Engine σ) (s0 : σ)
    (modulePath koe0 stdin : List CChar) :
    ∃ (code : Int) (r : Run σ), main E s0 modulePath koe0 stdin = some (code, r) ∧
      (∀ h kanji n, Call.AqKanji2Koe_Convert_sjis h kanji n ∈ r.calls →
        kanji.length ≤ NSTR - 1 ∧ (∀ a b : List CChar, kanji = a ++ NL :: b → b = []) ∧
        n = NSTR) ∧
      ((0 : CChar) ∉ stdin →
        (∀ h kanji n, Call.AqKanji2Koe_Convert_sjis h kanji n ∈ r.calls → 1 ≤ kanji.length) ∧
        (convertArgs r.calls).flatten <+: stdin) := by
  obtain ⟨code, r, m, h1, -, h3, h4, h5⟩ := main_calls E s0 modulePath koe0 stdin
  refine ⟨code, r, h1, ?_, ?_⟩
  · intro h kanji n hm
    have hk := mem_convertArgs _ _ _ _ hm
    rw [h3, List.mem_map] at hk
    obtain ⟨c, hc, rfl⟩ := hk
    have hc' : c ∈ chunks stdin := List.mem_of_mem_take hc
    exact ⟨cstr_length_le stdin c hc', cstr_nl_last stdin c hc', h5 h _ n hm⟩
  · intro hnul
    have hnul' : (0 : CChar) ∉ ((chunks stdin).take m).flatten := by
      intro h0
      apply hnul
      rw [← h4]
      exact List.mem_append_left _ h0
    rw [map_cstr_of_no_nul _ hnul'] at h3
    refine ⟨?_, ?_⟩
    · intro h kanji n hm
      have hk := mem_convertArgs _ _ _ _ hm
      rw [h3] at hk
      have := chunk_ne_nil stdin kanji (List.mem_of_mem_take hk)
      exact List.length_pos.mpr this
    · rw [h3]
      exact ⟨r.stdin, h4⟩

/-- Witness of `convert_args_bounds`: the echo engine on an input of two
lines without NUL bytes. -/
theorem convert_args_bounds_witness :
    ∃ (code : Int) (r : Run Nat), main echoEngine 0 [] [] [97, 10, 98, 10] = some (code, r) ∧
      (∀ h kanji n, Call.AqKanji2Koe_Convert_sjis h kanji n ∈ r.calls →
        kanji.length ≤ NSTR - 1 ∧ (∀ a b : List CChar, kanji = a ++ NL :: b → b = []) ∧
        n = NSTR) ∧
      (∀ h kanji n, Call.AqKanji2Koe_Convert_sjis h kanji n ∈ r.calls → 1 ≤ kanji.length) ∧
      (convertArgs r.calls).flatten <+: [97, 10, 98, 10] := by
  obtain ⟨code, r, h1, h2, h3⟩ := convert_args_bounds echoEngine 0 [] [] [97, 10, 98, 10]
  exact ⟨code, r, h1, h2, h3 (by decide)⟩

/-- C6, as stated, fails: on the input `a` without a final newline the string
passed to `AqKanji2Koe_Convert_sjis` is `a`, which holds no newline. -/
theorem convert_arg_no_newline_counterexample :
    (created echoEngine 0 []).2.1 ≠ 0 ∧
    (main echoEngine 0 [] [] [97]).map (fun x => convertArgs x.2.calls) = some [[97]] ∧
    NL ∉ ([97] : List CChar) := by
  decide

/-- C6, amended: when standard input contains no NUL byte and each of its
lines (its newline included) has at most `NSTR - 1` bytes, `main` ends and the
strings passed to `AqKanji2Koe_Convert_sjis` are, one call per line and in
order, the first `n` lines of standard input, each complete, from the start
of the line up to and including its newline or, for an unterminated last
line, the end of input; these `n` lines are exactly what was read. -/
theorem convert_per_line {σ : Type} (E : Engine σ) (s0 : σ)
    (modulePath koe0 stdin : List CChar) (hnul : (0 : CChar) ∉ stdin)
    (hlen : ∀ l ∈ splitLines stdin, l.length ≤ NSTR - 1) :
    ∃ (code : Int) (r : Run σ) (n : Nat), main E s0 modulePath koe0 stdin = some (code, r) ∧
      n ≤ (splitLines stdin).length ∧
      convertArgs r.calls = (splitLines stdin).take n ∧
      ((splitLines stdin).take n).flatten ++ r.stdin = stdin := by
  obtain ⟨code, r, m, h1, h2, h3, h4, -⟩ := main_calls E s0 modulePath koe0 stdin
  have hnul' : (0 : CChar) ∉ ((chunks stdin).take m).flatten := by
    intro h0
    apply hnul
    rw [← h4]
    exact List.mem_append_left _ h0
  rw [map_cstr_of_no_nul _ hnul'] at h3
  rw [chunks_eq_splitLines stdin.length stdin rfl hlen] at h2 h3 h4
  exact ⟨code, r, m, h1, h2, h3, h4⟩

/-- Witness of `convert_per_line`: the echo engine on two terminated lines
and an unterminated one. -/
theorem convert_per_line_witness :
    (0 : CChar) ∉ ([97, 10, 98, 99, 10, 100] : List CChar) ∧
    (∀ l ∈ splitLines [97, 10, 98, 99, 10, 100], l.length ≤ NSTR - 1) ∧
    ∃ (code : Int) (r : Run Nat) (n : Nat),
      main echoEngine 0 [] [] [97, 10, 98, 99, 10, 100] = some (code, r) ∧
      n ≤ (splitLines [97, 10, 98, 99, 10, 100]).length ∧
      convertArgs r.calls = (splitLines [97, 10, 98, 99, 10, 100]).take n ∧
      ((splitLines [97, 10, 98, 99, 10, 100]).take n).flatten ++ r.stdin =
        [97, 10, 98, 99, 10, 100] :=
  ⟨by decide, by decide,
    convert_per_line echoEngine 0 [] [] [97, 10, 98, 99, 10, 100] (by decide) (by decide)⟩

/-! ## The exit code and the dictionary path -/

/-- C8 fails on the code: with empty standard input, an engine whose
`AqKanji2Koe_SetDevKey` returns `1` and whose `AqKanji2Koe_Create` succeeds without writing `*pErr`,
`main` makes no conversion at all and returns `1`. -/
theorem main_exit_code_empty_stdin :
    (created echoEngine 0 []).2.1 ≠ 0 ∧
    (main echoEngine 0 [] [] []).map (fun x => (x.1, convertArgs x.2.calls)) = some (1, []) := by
  decide

/-- On a run where `AqKanji2Koe_Create` succeeds and standard input is empty, `main`
returns the value that `AqKanji2Koe_Create` left in `iret`. -/
theorem main_exit_code_of_empty {σ : Type} (E : Engine σ) (s0 : σ)
    (modulePath koe0 : List CChar) (hh : (created E s0 modulePath).2.1 ≠ 0) :
    (main E s0 modulePath koe0 []).map Prod.fst = some (created E s0 modulePath).2.2 := by
  simp only [created] at hh
  simp [main, created, hh, mainLoop, fgets]

set_option maxRecDepth 100000 in
/-- C9 fails on the code: for a module path of 259 characters whose file name
is `a.exe`, the string built in `dicDir` has 260 characters, one more than an
array of `_MAX_PATH` characters can hold with its terminator. -/
theorem dicDir_overflow :
    longModulePath.length = _MAX_PATH - 1 ∧
    (_AqGetExePath longModulePath).length = 254 ∧
    (dicDir longModulePath).length = _MAX_PATH := by
  decide

/-! ## Lines longer than the buffer -/

theorem fgetsAux_zero (s : List CChar) : fgetsAux s 0 = ([], s) := by
  cases s <;> simp [fgetsAux]

theorem fgetsAux_replicate (c : CChar) (hc : c ≠ NL) (t : List CChar) :
    ∀ (n k : Nat), k ≤ n →
      fgetsAux (List.replicate n c ++ t) k =
        (List.replicate k c, List.replicate (n - k) c ++ t) := by
  intro n
  induction n with
  | zero =>
    intro k hk
    have : k = 0 := by omega
    subst this
    simp [fgetsAux_zero]
  | succ n ih =>
    intro k hk
    cases k with
    | zero => simp [fgetsAux_zero]
    | succ k =>
      have h := ih k (by omega)
      rw [List.replicate_succ, List.cons_append, fgetsAux]
      simp only [Nat.succ_ne_zero, if_false, hc, Nat.add_sub_cancel, h, Nat.add_sub_add_right,
        List.replicate_succ]

/-- A line of 4096 letters `a` and its newline is read as two chunks: the
first 4095 letters, then the last letter with the newline. -/
theorem chunks_long_line :
    chunks (List.replicate 4096 97 ++ [NL]) = [List.replicate 4095 97, [97, NL]] := by
  have h1 : fgetsAux (List.replicate 4096 97 ++ [NL]) (NSTR - 1) =
      (List.replicate 4095 97, [97, NL]) :=
    fgetsAux_replicate 97 (by decide) [NL] 4096 4095 (by decide)
  have h2 : chunks [97, NL] = [[97, NL]] := by decide
  rw [chunks_of_ne_nil _ (by rw [Ne, List.append_eq_nil]; exact fun h => absurd h.2 (by simp)),
    h1, h2]

/-! ## The exit code when at least one chunk is read -/

theorem lastRet_cons (a : Int) (x : Int × List CChar) (l : List (Int × List CChar)) :
    lastRet a (x :: l) = lastRet x.1 l := by
  cases l with
  | nil => simp [lastRet]
  | cons y l =>
    simp only [lastRet, List.getLast?_cons_cons]
    rw [List.getLast?_eq_getLast _ (List.cons_ne_nil y l)]
    simp

theorem lastRet_take_okPrefix (res : List (Int × List CChar)) :
    ∀ a : Int, lastRet a (res.take ((okPrefix res).length + 1)) =
      if res = [] then a else firstError res := by
  induction res with
  | nil => intro a; simp [lastRet]
  | cons x res ih =>
    intro a
    by_cases hx : x.1 = 0
    · have h1 : okPrefix (x :: res) = x :: okPrefix res := by
        simp [okPrefix, List.takeWhile_cons, hx]
      rw [h1, List.length_cons, List.take_succ_cons, lastRet_cons, ih x.1]
      by_cases hres : res = []
      · subst hres
        simp [firstError, List.dropWhile_cons, hx]
      · simp [hres, firstError, List.dropWhile_cons, hx]
    · have h1 : okPrefix (x :: res) = [] := by
        simp [okPrefix, List.takeWhile_cons, hx]
      rw [h1]
      simp [lastRet, firstError, List.dropWhile_cons, hx]

/-- On a run where `AqKanji2Koe_Create` succeeds and standard input is not empty, `main`
returns the code of the first conversion that returned nonzero, and `0` when
every conversion returned `0`. -/
theorem main_exit_code_of_nonempty {σ : Type} (E : Engine σ) (s0 : σ)
    (modulePath koe0 stdin : List CChar) (hh : (created E s0 modulePath).2.1 ≠ 0)
    (hs : stdin ≠ []) :
    (main E s0 modulePath koe0 stdin).map Prod.fst =
      some (firstError (convertAll E (created E s0 modulePath).2.1
        (created E s0 modulePath).1 koe0 (chunks stdin))) := by
  obtain ⟨r, h1, -, -, -, h5⟩ := main_created_ok E s0 modulePath koe0 stdin hh
  rw [h1, Option.map_some', h5, lastRet_take_okPrefix]
  have hne : convertAll E (created E s0 modulePath).2.1 (created E s0 modulePath).1 koe0
      (chunks stdin) ≠ [] := by
    rw [chunks_of_ne_nil stdin hs]
    simp [convertAll]
  simp [hne]

end Kanji2KoeCmd

namespace AqKanji2Koe

/-! ## Round trip through the Encoding Adapter -/

theorem decodeUtf8Head_encode (c : Nat) (h : isScalar c = true) (rest : List Nat) :
    ∃ u tl, encodeUtf8Char c ++ rest = u :: tl ∧
      decodeUtf8Head u tl = (c, (encodeUtf8Char c).length) := by
  simp only [isScalar, Bool.or_eq_true, Bool.and_eq_true, decide_eq_true_eq] at h
  unfold encodeUtf8Char
  split_ifs with h1 h2 h3
  · exact ⟨c, rest, rfl, by simp [decodeUtf8Head, h1]⟩
  · refine ⟨0xC0 + c / 64, (0x80 + c % 64) :: rest, rfl, ?_⟩
    have e1 : ¬ (0xC0 + c / 64 < 0x80) := by omega
    have e2 : ¬ (0xC0 + c / 64 < 0xC0) := by omega
    have e3 : 0xC0 + c / 64 < 0xE0 := by omega
    have e4 : isCont (0x80 + c % 64) = true := by
      simp only [isCont, Bool.and_eq_true, decide_eq_true_eq]; omega
    have e5 : (0xC0 + c / 64 - 0xC0) * 64 + (0x80 + c % 64 - 0x80) = c := by omega
    simp only [decodeUtf8Head, e1, e2, e3, e4, e5, if_false, if_true, Bool.true_and,
      decide_eq_true_eq, List.length_cons, List.length_nil]
    rw [if_pos (by omega)]
  · refine ⟨0xE0 + c / 4096, (0x80 + c / 64 % 64) :: (0x80 + c % 64) :: rest, rfl, ?_⟩
    have e1 : ¬ (0xE0 + c / 4096 < 0x80) := by omega
    have e2 : ¬ (0xE0 + c / 4096 < 0xC0) := by omega
    have e3 : ¬ (0xE0 + c / 4096 < 0xE0) := by omega
    have e3' : 0xE0 + c / 4096 < 0xF0 := by omega
    have e4 : isCont (0x80 + c / 64 % 64) = true := by
      simp only [isCont, Bool.and_eq_true, decide_eq_true_eq]; omega
    have e4' : isCont (0x80 + c % 64) = true := by
      simp only [isCont, Bool.and_eq_true, decide_eq_true_eq]; omega
    have e5 : (0xE0 + c / 4096 - 0xE0) * 4096 + (0x80 + c / 64 % 64 - 0x80) * 64 +
        (0x80 + c % 64 - 0x80) = c := by omega
    have e6 : isScalar c = true := by
      simp only [isScalar, Bool.or_eq_true, Bool.and_eq_true, decide_eq_true_eq]; exact h
    simp only [decodeUtf8Head, e1, e2, e3, e3', e4, e4', e5, e6, if_false, if_true,
      Bool.true_and, Bool.and_true, decide_eq_true_eq, List.length_cons, List.length_nil]
    rw [if_pos (by omega)]
  · refine ⟨0xF0 + c / 262144,
      (0x80 + c / 4096 % 64) :: (0x80 + c / 64 % 64) :: (0x80 + c % 64) :: rest, rfl, ?_⟩
    have e1 : ¬ (0xF0 + c / 262144 < 0x80) := by omega
    have e2 : ¬ (0xF0 + c / 262144 < 0xC0) := by omega
    have e3 : ¬ (0xF0 + c / 262144 < 0xE0) := by omega
    have e3' : ¬ (0xF0 + c / 262144 < 0xF0) := by omega
    have e3'' : 0xF0 + c / 262144 < 0xF8 := by omega
    have e4 : isCont (0x80 + c / 4096 % 64) = true := by
      simp only [isCont, Bool.and_eq_true, decide_eq_true_eq]; omega
    have e4' : isCont (0x80 + c / 64 % 64) = true := by
      simp only [isCont, Bool.and_eq_true, decide_eq_true_eq]; omega
    have e4'' : isCont (0x80 + c % 64) = true := by
      simp only [isCont, Bool.and_eq_true, decide_eq_true_eq]; omega
    have e5 : (0xF0 + c / 262144 - 0xF0) * 262144 + (0x80 + c / 4096 % 64 - 0x80) * 4096 +
        (0x80 + c / 64 % 64 - 0x80) * 64 + (0x80 + c % 64 - 0x80) = c := by omega
    simp only [decodeUtf8Head, e1, e2, e3, e3', e3'', e4, e4', e4'', e5, if_false, if_true,
      Bool.true_and, Bool.and_true, decide_eq_true_eq, List.length_cons, List.length_nil]
    have e7 : 0x10000 ≤ c := by omega
    have e8 : c < 0x110000 := by omega
    simp [e7, e8]

theorem decodeUtf16Head_encode (c : Nat) (h : isScalar c = true) (rest : List Nat) :
    ∃ u tl, encodeUtf16Char c ++ rest = u :: tl ∧
      decodeUtf16Head u tl = (c, (encodeUtf16Char c).length) := by
  simp only [isScalar, Bool.or_eq_true, Bool.and_eq_true, decide_eq_true_eq] at h
  unfold encodeUtf16Char
  split_ifs with h1
  · refine ⟨c, rest, rfl, ?_⟩
    rcases h with h | h
    · simp [decodeUtf16Head, h]
    · have e1 : ¬ c < 0xD800 := by omega
      have e2 : ¬ c < 0xDC00 := by omega
      have e3 : ¬ c < 0xE000 := by omega
      simp [decodeUtf16Head, e1, e2, e3, h1]
  · refine ⟨0xD800 + (c - 0x10000) / 1024, (0xDC00 + (c - 0x10000) % 1024) :: rest, rfl, ?_⟩
    have e1 : ¬ (0xD800 + (c - 0x10000) / 1024 < 0xD800) := by omega
    have e2 : 0xD800 + (c - 0x10000) / 1024 < 0xDC00 := by omega
    have e3 : 0xDC00 ≤ 0xDC00 + (c - 0x10000) % 1024 ∧
        0xDC00 + (c - 0x10000) % 1024 < 0xE000 := by omega
    have e5 : 0x10000 + (0xD800 + (c - 0x10000) / 1024 - 0xD800) * 1024 +
        (0xDC00 + (c - 0x10000) % 1024 - 0xDC00) = c := by omega
    simp only [decodeUtf16Head, e1, e2, e3, e5, if_false, if_true, and_self,
      List.length_cons, List.length_nil]

theorem decodeSjisHead_encode (T : JisTable) (c : Nat)
    (h : isRepresentable T Encoding.sjis c = true) (rest : List Nat) :
    ∃ u tl, encodeSjisChar T c ++ rest = u :: tl ∧
      decodeSjisHead T u tl = (c, (encodeSjisChar T c).length) := by
  unfold encodeSjisChar
  by_cases h1 : c < 0x80
  · exact ⟨c, rest, by simp [h1], by simp [decodeSjisHead, h1]⟩
  · by_cases h2 : 0xFF61 ≤ c ∧ c ≤ 0xFF9F
    · refine ⟨c - 0xFF61 + 0xA1, rest, by simp [h1, h2], ?_⟩
      have e1 : ¬ (c - 0xFF61 + 0xA1 < 0x80) := by omega
      have e2 : 0xA1 ≤ c - 0xFF61 + 0xA1 ∧ c - 0xFF61 + 0xA1 ≤ 0xDF := by omega
      have e3 : c - 0xFF61 + 0xA1 - 0xA1 + 0xFF61 = c := by omega
      simp only [decodeSjisHead, e1, e2, e3, h1, h2, if_false, if_true, and_self,
        List.length_cons, List.length_nil]
    · simp only [isRepresentable, Bool.or_eq_true, Bool.and_eq_true, decide_eq_true_eq] at h
      rcases h with (h | h) | h
      · exact absurd h h1
      · exact absurd h h2
      · cases hl : T.ofUnicode c with
        | none => simp [hl] at h
        | some lt =>
        obtain ⟨l, t⟩ := lt
        simp only [hl, Bool.and_eq_true, decide_eq_true_eq] at h
        obtain ⟨⟨hlead, htrail⟩, hback⟩ := h
        refine ⟨l, t :: rest, by simp [h1, h2, hl, hlead, htrail], ?_⟩
        have e1 : ¬ l < 0x80 := by
          simp only [isSjisLead, Bool.or_eq_true, Bool.and_eq_true, decide_eq_true_eq] at hlead
          omega
        have e2 : ¬ (0xA1 ≤ l ∧ l ≤ 0xDF) := by
          simp only [isSjisLead, Bool.or_eq_true, Bool.and_eq_true, decide_eq_true_eq] at hlead
          omega
        simp [decodeSjisHead, e1, e2, hlead, htrail, hback, h1, h2, hl]

theorem decodeHead_encodeChar (T : JisTable) (enc : Encoding) (c : Nat)
    (h : isRepresentable T enc c = true) (rest : List Nat) :
    ∃ u tl, encodeChar T enc c ++ rest = u :: tl ∧
      decodeHead T enc u tl = (c, (encodeChar T enc c).length) := by
  cases enc with
  | utf8 =>
    simp only [isRepresentable] at h
    simp only [encodeChar, decodeHead, h, if_true]
    exact decodeUtf8Head_encode c h rest
  | utf16le =>
    simp only [isRepresentable] at h
    simp only [encodeChar, decodeHead, h, if_true]
    exact decodeUtf16Head_encode c h rest
  | sjis => exact decodeSjisHead_encode T c h rest

theorem encodeChar_length_pos (T : JisTable) (enc : Encoding) (c : Nat)
    (h : isRepresentable T enc c = true) : 1 ≤ (encodeChar T enc c).length := by
  obtain ⟨u, tl, h1, -⟩ := decodeHead_encodeChar T enc c h []
  rw [List.append_nil] at h1
  simp [h1]

theorem encode_length_ge (T : JisTable) (enc : Encoding) (cps : List Nat)
    (h : ∀ c ∈ cps, isRepresentable T enc c = true) : cps.length ≤ (encode T enc cps).length := by
  induction cps with
  | nil => simp
  | cons c cs ih =>
    have h1 := encodeChar_length_pos T enc c (h c (List.mem_cons_self c cs))
    have h2 := ih (fun x hx => h x (List.mem_cons_of_mem c hx))
    simp only [encode, List.map_cons, List.flatten_cons, List.length_append,
      List.length_cons] at h2 ⊢
    omega

theorem decodeAux_encode (T : JisTable) (enc : Encoding) (cps : List Nat)
    (h : ∀ c ∈ cps, isRepresentable T enc c = true) :
    ∀ fuel : Nat, cps.length ≤ fuel → decodeAux T enc fuel (encode T enc cps) = cps := by
  induction cps with
  | nil =>
    intro fuel _
    cases fuel <;> simp [encode, decodeAux]
  | cons c cs ih =>
    intro fuel hf
    cases fuel with
    | zero => simp at hf
    | succ fuel =>
      obtain ⟨u, tl, h1, h2⟩ := decodeHead_encodeChar T enc c
        (h c (List.mem_cons_self c cs)) (encode T enc cs)
      have h3 : encode T enc (c :: cs) = u :: tl := by
        simp only [encode, List.map_cons, List.flatten_cons] at h1 ⊢
        exact h1
      rw [h3]
      simp only [decodeAux, h2]
      rw [← h1, List.drop_left,
        ih (fun x hx => h x (List.mem_cons_of_mem c hx)) fuel (by simpa using hf)]

/-- C4: for each of the three encodings (UTF-8, UTF-16LE, Shift-JIS) and
every sequence of code points representable in it, decoding the Encoding
Adapter's encoding of the sequence gives the sequence back. -/
theorem decode_encode (T : JisTable) (enc : Encoding) (cps : List Nat)
    (h : ∀ c ∈ cps, isRepresentable T enc c = true) :
    decode T enc (encode T enc cps) = cps :=
  decodeAux_encode T enc cps h _ (encode_length_ge T enc cps h)

/-- Witness of `decode_encode`: a Shift-JIS text with an ASCII letter, a
hiragana, a kanji and a half-width katakana. -/
theorem decode_encode_witness :
    (∀ c ∈ [0x41, 0x3042, 0x4E9C, 0xFF71], isRepresentable sampleTable Encoding.sjis c = true) ∧
    decode sampleTable Encoding.sjis (encode sampleTable Encoding.sjis
      [0x41, 0x3042, 0x4E9C, 0xFF71]) = [0x41, 0x3042, 0x4E9C, 0xFF71] :=
  ⟨by decide,
   decode_encode sampleTable Encoding.sjis [0x41, 0x3042, 0x4E9C, 0xFF71] (by decide)⟩

/-! ## Coverage of the Segmenter -/

theorem pickBest_mem (P : Policy) (prev : Option Nat) (l : List (Bool × DictionaryEntry))
    (c : Bool × DictionaryEntry) (h : pickBest P prev l = some c) : c ∈ l := by
  induction l generalizing c with
  | nil => simp [pickBest] at h
  | cons d l ih =>
    unfold pickBest at h
    split at h
    · simp only [Option.some.injEq] at h
      subst h
      exact List.mem_cons_self _ _
    · next b hb =>
      split_ifs at h
      · simp only [Option.some.injEq] at h
        subst h
        exact List.mem_cons_of_mem _ (ih b hb)
      · simp only [Option.some.injEq] at h
        subst h
        exact List.mem_cons_self _ _

theorem lookup_surface (D : DictionaryStore) (text : List Nat) (c : Bool × DictionaryEntry)
    (h : c ∈ D.lookup text) : 1 ≤ c.2.surface.length ∧ c.2.surface.length ≤ text.length := by
  have key : ∀ e : DictionaryEntry,
      (!e.surface.isEmpty && e.surface.isPrefixOf text) = true →
      1 ≤ e.surface.length ∧ e.surface.length ≤ text.length := by
    intro e he
    simp only [Bool.and_eq_true, Bool.not_eq_true', List.isEmpty_eq_false,
      List.isPrefixOf_iff_prefix] at he
    exact ⟨List.length_pos.mpr he.1, he.2.length_le⟩
  simp only [DictionaryStore.lookup, List.mem_append, List.mem_map, List.mem_filter] at h
  rcases h with ⟨e, ⟨-, he⟩, rfl⟩ | ⟨e, ⟨-, he⟩, rfl⟩
  · exact key e he
  · exact key e he

theorem runLength_le (P : Policy) (k : CharClass) (text : List Nat) :
    runLength P k text ≤ text.length := by
  induction text with
  | nil => simp [runLength]
  | cons c text ih =>
    unfold runLength
    split_ifs
    · simp only [List.length_cons]; omega
    · omega

theorem segmentAux_partition (D : DictionaryStore) (P : Policy) :
    ∀ (fuel pos : Nat) (prev : Option Nat) (text : List Nat), text.length ≤ fuel →
      IsPartition ((segmentAux D P fuel pos prev text).map Morpheme.span) pos
        (pos + text.length) := by
  intro fuel
  induction fuel with
  | zero =>
    intro pos prev text h
    have : text = [] := List.length_eq_zero.mp (Nat.le_zero.mp h)
    subst this
    simp [segmentAux, IsPartition]
  | succ fuel ih =>
    intro pos prev text h
    cases text with
    | nil => simp [segmentAux, IsPartition]
    | cons c text =>
      simp only [List.length_cons] at h
      unfold segmentAux
      split
      · next b e hbest =>
        have hs := lookup_surface D (c :: text) (b, e) (pickBest_mem P prev _ _ hbest)
        simp only [List.length_cons] at hs
        have hrec := ih (pos + e.surface.length) (some e.pos)
          ((c :: text).drop e.surface.length)
          (by simp only [List.length_drop, List.length_cons]; omega)
        simp only [List.length_drop, List.length_cons] at hrec
        have e1 : pos + e.surface.length + (text.length + 1 - e.surface.length) =
            pos + (text.length + 1) := by omega
        rw [e1] at hrec
        simp only [List.map_cons, Morpheme.span, IsPartition, List.length_cons]
        exact ⟨trivial, by omega, hrec⟩
      · have hr := runLength_le P (P.classOf c) text
        have hrec := ih (pos + (runLength P (P.classOf c) text + 1)) none
          ((c :: text).drop (runLength P (P.classOf c) text + 1))
          (by simp only [List.length_drop, List.length_cons]; omega)
        simp only [List.length_drop, List.length_cons] at hrec
        have e1 : pos + (runLength P (P.classOf c) text + 1) +
            (text.length + 1 - (runLength P (P.classOf c) text + 1)) =
            pos + (text.length + 1) := by omega
        rw [e1] at hrec
        simp only [List.map_cons, Morpheme.span, IsPartition, List.length_cons]
        exact ⟨trivial, by omega, hrec⟩

/-- C5: for every dictionary, policy and input code-point sequence, with or
without dictionary matches, the Segmenter returns morphemes whose spans, in
order, exactly partition the input: the first starts at `0`, each starts
where the previous one ends, the last ends at the input length, and none is
empty. -/
theorem segment_partition (D : DictionaryStore) (P : Policy) (text : List Nat) :
    IsPartition ((segment D P text).map Morpheme.span) 0 text.length := by
  have h := segmentAux_partition D P text.length 0 none text (Nat.le_refl _)
  simpa [segment] using h

/-! ## The buffer contract of `convert` -/

/-- C3: on a ready handle, for every input text in any of the three
encodings and every capacity `nBufKoe`, `convert` either returns `0` and
leaves in `koe` the complete phonetic string followed by its terminator,
both within `nBufKoe` units, or returns the nonzero buffer-capacity code
because they do not fit; in particular it fails with `nBufKoe = 1` when the
phonetic string is not empty. -/
theorem convert_complete_or_error (G : Tables) (D : DictionaryStore) (enc : Encoding)
    (kanji koe : List Nat) (nBufKoe : Int) :
    (((convert G (HandleState.ready D) enc kanji koe nBufKoe).1 = 0 ∧
        (convert G (HandleState.ready D) enc kanji koe nBufKoe).2.take
          ((phoneticString G D enc kanji).length + 1) = phoneticString G D enc kanji ++ [0] ∧
        ((phoneticString G D enc kanji).length : Int) + 1 ≤ nBufKoe) ∨
      ((convert G (HandleState.ready D) enc kanji koe nBufKoe).1 = G.errBuffer ∧
        (convert G (HandleState.ready D) enc kanji koe nBufKoe).1 ≠ 0 ∧
        nBufKoe < ((phoneticString G D enc kanji).length : Int) + 1)) ∧
    (phoneticString G D enc kanji ≠ [] →
      (convert G (HandleState.ready D) enc kanji koe 1).1 ≠ 0) := by
  refine ⟨?_, ?_⟩
  · by_cases h : ((phoneticString G D enc kanji).length : Int) + 1 ≤ nBufKoe
    · left
      refine ⟨by simp [convert, h], ?_, h⟩
      simp only [convert, h, if_true]
      rw [List.append_assoc, List.take_append_eq_append_take]
      simp
    · right
      refine ⟨by simp [convert, h], ?_, by omega⟩
      simp only [convert, h, if_false]
      exact G.errBuffer_ne
  · intro hne
    have hpos : 0 < (phoneticString G D enc kanji).length := List.length_pos.mpr hne
    have h : ¬ ((phoneticString G D enc kanji).length : Int) + 1 ≤ 1 := by omega
    simp only [convert, h, if_false]
    exact G.errBuffer_ne

/-- Witness of `convert_complete_or_error`: the sample engine on the UTF-8
text of U+4ECA U+65E5 with a buffer of four bytes. -/
theorem convert_complete_or_error_witness :
    phoneticString sampleTables sampleDictionary Encoding.utf8
      [0xE4, 0xBB, 0x8A, 0xE6, 0x97, 0xA5] ≠ [] ∧
    (convert sampleTables (HandleState.ready sampleDictionary) Encoding.utf8
      [0xE4, 0xBB, 0x8A, 0xE6, 0x97, 0xA5] [] 1).1 ≠ 0 :=
  ⟨by decide,
   (convert_complete_or_error sampleTables sampleDictionary Encoding.utf8
      [0xE4, 0xBB, 0x8A, 0xE6, 0x97, 0xA5] [] 4).2 (by decide)⟩

end AqKanji2Koe
